import Mathlib

/-!
Shallow embedding of `auto_string_cleaner/modules/handle_outliers.py`.

Values flowing through a pandas column are modelled by `PVal`: a value is
either missing (pandas `NaN`), a string, or some other scalar carried
together with its Python truthiness and its `str()` rendering.  Rational
numbers stand in for Python's arithmetic on the module's exact decimal
thresholds.  The `difflib.get_close_matches` routine is an external
collaborator and enters the embedding as an explicit `matcher` parameter.
-/

/-- Scalar value held in a pandas column: missing, a string, or a non-string
scalar remembered with its truthiness and its `str()` form. -/
inductive PVal where
  | none : PVal
  | str : String → PVal
  | other : Bool → String → PVal
  deriving DecidableEq

/-- Python `str(v)` as pandas renders column values (`astype(str)` turns a
missing value into the string "nan"). -/
def pvalStr : PVal → String
  | .none => "nan"
  | .str s => s
  | .other _ r => r

/-- Python truthiness, as used by `filter(None, df)`: missing values and empty
strings are falsy; other scalars carry their own truthiness. -/
def pvalTruthy : PVal → Bool
  | .none => false
  | .str s => !s.isEmpty
  | .other t _ => t

/-- Test `type(x) == str` from the source's coercion line. -/
def pvalIsStr : PVal → Bool
  | .str _ => true
  | _ => false

/-- Helper for first-occurrence deduplication, carrying the set of entries
already seen. -/
def uniqueAux {α : Type} [DecidableEq α] (seen : List α) : List α → List α
  | [] => []
  | v :: vs => if v ∈ seen then uniqueAux seen vs else v :: uniqueAux (v :: seen) vs

/-- Unique entries of a list in order of first appearance, the order
`pandas.Series.unique` returns (`list(df[col].unique())` in the source). -/
def uniqueList {α : Type} [DecidableEq α] (l : List α) : List α :=
  uniqueAux [] l

/-- Frequency of one value in a column: `df[col].value_counts()` read at one
key.  The pandas `.at` lookup raises on an absent key where this total model
returns 0; every claim queries only values present in the column. -/
def value_counts (col : List PVal) (v : PVal) : ℕ :=
  col.count v

/-- One gram `s[j:j+n]` of the source's comprehension. -/
def gramAt (s : String) (n j : ℕ) : String :=
  String.mk ((s.toList.drop j).take n)

/-- Gram set of one string, the inner comprehension of `generate_ngram`:
`set([s[j:j+n] for j in range(len(s) - n-1)])`. -/
def ngramOf (s : String) (n : ℕ) : Finset String :=
  ((List.range (s.length - n - 1)).map (gramAt s n)).toFinset

/-- Source `generate_ngram`: gram sets of a list of strings (the default gram
length 3 is passed explicitly by the callers of this embedding). -/
def generate_ngram (unique_vals : List String) (n : ℕ) : List (Finset String) :=
  unique_vals.map (fun s => ngramOf s n)

/-- Jaccard-style ratio of `compute_most_similar`'s inner loop:
`len(intersection) / len(union)` guarded by `len(union) != 0`, else 0. -/
def jaccard (a b : Finset String) : ℚ :=
  if (a ∪ b).card ≠ 0 then ((a ∩ b).card : ℚ) / ((a ∪ b).card : ℚ) else 0

/-- Inner `for j` loop of `compute_most_similar`; the state is the pair of
loop variables `(best_ratio, best_pair)`, Python's falsy empty list standing
for `Option.none`. -/
def innerLoop (v : String) (g : Finset String) :
    List (String × Finset String) → ℚ × Option (String × String) → ℚ × Option (String × String)
  | [], st => st
  | (w, gw) :: rest, st =>
    let r := jaccard g gw
    if 0.75 ≤ r ∧ st.1 < r then innerLoop v g rest (r, some (v, w))
    else innerLoop v g rest st

/-- Outer `for i` loop of `compute_most_similar` over the zipped
value/gram-set list. -/
def msAux : List (String × Finset String) → List (String × String)
  | [] => []
  | (v, g) :: rest =>
    match (innerLoop v g rest (0, none)).2 with
    | some p => p :: msAux rest
    | none => msAux rest

/-- Source `compute_most_similar`.  The source indexes `unique_vals[i]` at
positions of `ngram_vals`; its callers pass parallel lists (as `run` does),
which the zip realises. -/
def compute_most_similar (unique_vals : List String) (ngram_vals : List (Finset String)) :
    List (String × String) :=
  msAux (unique_vals.zip ngram_vals)

/-- Source `sort_tuples`: annotate the pair with its frequencies and sort
ascending on frequency; Python's stable sort keeps the given order on ties. -/
def sort_tuples (freq : String → ℕ) (pair : String × String) : (String × ℕ) × (String × ℕ) :=
  let t0 := (pair.1, freq pair.1)
  let t1 := (pair.2, freq pair.2)
  if t1.2 < t0.2 then (t1, t0) else (t0, t1)

/-- Source `compute_ratio`:
`True if tup[0][1] / tup[1][1] < threshold else False`. -/
def compute_ratio (tup : (String × ℕ) × (String × ℕ)) (threshold : ℚ) : Bool :=
  if (tup.1.2 : ℚ) / (tup.2.2 : ℚ) < threshold then true else false

/-- Source `compute_close_matches` with difflib's routine as the `matcher`
parameter.  The two normalization lines are translated literally:
`df = list(filter(None, df))` keeps the truthy entries, and
`df = [str(x) for x in df if type(x) != str]` keeps only the entries that are
not already strings, stringified.  `list(set(...))` is modelled as
first-occurrence deduplication (Python's set order is unspecified). -/
def compute_close_matches (matcher : PVal → List String → List String)
    (df : List PVal) (suspect : PVal) : List String :=
  let df1 := df.filter pvalTruthy
  let df2 := (df1.filter (fun x => !(pvalIsStr x))).map pvalStr
  uniqueList (matcher suspect df2)

/-- Source `df[col].replace(a, b)`: every occurrence of `a` becomes `b`. -/
def replaceVal (col : List PVal) (a b : PVal) : List PVal :=
  col.map (fun v => if v = a then b else v)

/-- Random-fallback block of `run`.  The source guard
`len(set(df[col].unique()).difference(set(outlier))) == 0`, which skips the
value, holds exactly when `find?` below returns `Option.none`.  The sampling
loop draws column values until one outside the outlier list appears; any
terminating execution yields some column value not in the outlier list,
modelled here by the first such value. -/
def random_fallback (col : List PVal) (outlier : List PVal) (out : PVal) : List PVal :=
  match col.find? (fun v => decide (v ∉ outlier)) with
  | some r => replaceVal col out r
  | none => col

/-- Body of `for pair in most_sim` inside the flagged-outlier branch of `run`:
`out in pair` compares the flagged value with the two pair strings; on a
confident frequency ratio — or, failing that, on a non-string non-subtype
datatype — the low-frequency member is replaced by the high-frequency one. -/
def applyPair (names : List String) (dt : String) (freq : String → ℕ) (out : PVal)
    (col : List PVal) (pair : String × String) : List PVal :=
  if out = PVal.str pair.1 ∨ out = PVal.str pair.2 then
    let tup := sort_tuples freq pair
    if compute_ratio tup 0.05 then replaceVal col (PVal.str tup.1.1) (PVal.str tup.2.1)
    else if dt ∉ names ∧ dt ≠ "string" then replaceVal col (PVal.str tup.1.1) (PVal.str tup.2.1)
    else col
  else col

/-- Body of `for out in outlier` in `run`: the rarity guard, the similarity
pipeline, and the random fallback.  `col0` and `unique_vals` are the original
column and its uniques, computed once per column and used for all frequency
reads, while `cur` is the column state mutated so far.  The frequency lookup
`unique_freq.at[pair[k]]` keys the original values by the pair's strings.  An
empty dataframe would make Python raise ZeroDivisionError where the total
model divides by zero; no claim touches an empty column. -/
def handleOut (matcher : PVal → List String → List String) (names : List String) (dt : String)
    (col0 : List PVal) (unique_vals : List PVal) (outlier : List PVal)
    (cur : List PVal) (out : PVal) : List PVal :=
  if ((value_counts col0 out : ℚ) / (col0.length : ℚ) < 0.025
        ∧ (unique_vals.length : ℚ) / (col0.length : ℚ) < 0.8)
      ∨ (out ∈ cur ∧ dt ∉ names ∧ dt ≠ "string") then
    let close_matches := compute_close_matches matcher unique_vals out
    let ngrams := generate_ngram close_matches 3
    let most_sim := compute_most_similar close_matches ngrams
    let cur1 := most_sim.foldl (applyPair names dt (fun s => value_counts col0 (PVal.str s)) out) cur
    if out ∈ cur1 ∧ dt ∉ names ∧ dt ≠ "string" then random_fallback cur1 outlier out
    else cur1
  else cur

/-- Third branch of `run` (no declared outliers, recognized subtype): sweep
the values below the 2.5%-frequency / 80%-uniqueness thresholds through the
same similarity pipeline, replacing confidently resolved pairs only.
`value_counts` sorts its index by descending count and omits missing values;
the candidates are modelled in first-appearance order over all uniques, which
agrees on columns without missing entries (a missing candidate would make the
Python `.at` lookup raise), and no claim depends on this branch's order. -/
def rareValueSweep (matcher : PVal → List String → List String)
    (col : List PVal) : List PVal :=
  let unique_vals := uniqueList col
  let infreq := unique_vals.filter (fun v =>
    decide ((value_counts col v : ℚ) / (col.length : ℚ) < 0.025
      ∧ (unique_vals.length : ℚ) / (col.length : ℚ) < 0.8))
  infreq.foldl (fun cur item =>
    let close_matches := compute_close_matches matcher unique_vals item
    let most_sim := compute_most_similar close_matches (generate_ngram close_matches 3)
    most_sim.foldl (fun c pair =>
      if item = PVal.str pair.1 ∨ item = PVal.str pair.2 then
        let tup := sort_tuples (fun s => value_counts col (PVal.str s)) pair
        if compute_ratio tup 0.05 then replaceVal c (PVal.str tup.1.1) (PVal.str tup.2.1)
        else c
      else c) cur) col

/-- Per-column body of the `run` loop.  The source line
`unique_freq.index.map(str)` discards its result and is a no-op.  Branch 1:
all uniques flagged, `astype(str)` and datatype "string".  Branch 2: flagged
outliers on a non-"sentence" column.  Branch 3: no outliers, recognized
subtype.  Otherwise the column is untouched. -/
def handleColumn (matcher : PVal → List String → List String) (names : List String)
    (col : List PVal) (dt : String) (outlier : List PVal) : List PVal × String :=
  let unique_vals := uniqueList col
  if unique_vals.length = outlier.length then
    (col.map (fun v => PVal.str (pvalStr v)), "string")
  else if outlier ≠ [] ∧ dt ≠ "sentence" then
    (outlier.foldl (handleOut matcher names dt col unique_vals outlier) col, dt)
  else if outlier = [] ∧ dt ∈ names ∧ dt ≠ "sentence" then
    (rareValueSweep matcher col, dt)
  else
    (col, dt)

/-- Source `run`: zip columns, datatype labels and outlier lists (stopping at
the shortest, unvisited tails unchanged, as Python's `zip` does) and process
each column independently; `datatypes[i] = 'string'` mutates only the current
slot.  Progress printing is dropped. -/
def run (matcher : PVal → List String → List String) :
    List (List PVal) → List String → List (List PVal) → List String →
    List (List PVal) × List String
  | [], datatypes, _, _ => ([], datatypes)
  | df, [], _, _ => (df, [])
  | df, datatypes, [], _ => (df, datatypes)
  | col :: df, dt :: datatypes, outlier :: outliers, names =>
    let p := handleColumn matcher names col dt outlier
    let rest := run matcher df datatypes outliers names
    (p.1 :: rest.1, p.2 :: rest.2)

/-- Modelled from the claim: the naive sliding window over all valid grams,
`s[j:j+n]` for j from 0 to `len(s) - n` inclusive (empty when the string is
shorter than the gram length). -/
def naiveWindows (s : String) (n : ℕ) : List String :=
  if n ≤ s.length then (List.range (s.length - n + 1)).map (gramAt s n) else []

/-- Modelled from the claim: the gram set with exactly the final valid gram
excluded — one window fewer than the naive sliding window. -/
def ngramAllButLast (s : String) (n : ℕ) : Finset String :=
  (naiveWindows s n).dropLast.toFinset

/-- Matcher reporting no close match; instantiates the difflib parameter in
executions that never consult it. -/
def emptyMatcher : PVal → List String → List String :=
  fun _ _ => []

/-- Column of the spec's end-to-end scenario:
`["apple", "aple", "banana", "banana", "banana"]`. -/
def appleCol : List PVal :=
  [PVal.str "apple", PVal.str "aple", PVal.str "banana", PVal.str "banana", PVal.str "banana"]

/-- Specification of one returned pair of `compute_most_similar` over the
zipped value/gram list: a left position `i` paired with a strictly later
position `j`, scoring at least 0.75, such that no later partner of `i` beats
`j`'s ratio and every partner strictly between attains strictly less (ties
resolve to the earliest right-hand index). -/
def BestPairSpec (l : List (String × Finset String)) (p : String × String) : Prop :=
  ∃ i j, ∃ hij : i < j, ∃ hj : j < l.length,
    (l.get ⟨i, lt_trans hij hj⟩).1 = p.1 ∧ (l.get ⟨j, hj⟩).1 = p.2 ∧
    0.75 ≤ jaccard (l.get ⟨i, lt_trans hij hj⟩).2 (l.get ⟨j, hj⟩).2 ∧
    (∀ k, ∀ hk : k < l.length, i < k →
      jaccard (l.get ⟨i, lt_trans hij hj⟩).2 (l.get ⟨k, hk⟩).2 ≤
        jaccard (l.get ⟨i, lt_trans hij hj⟩).2 (l.get ⟨j, hj⟩).2) ∧
    (∀ k, ∀ hk : k < l.length, i < k → k < j →
      jaccard (l.get ⟨i, lt_trans hij hj⟩).2 (l.get ⟨k, hk⟩).2 <
        jaccard (l.get ⟨i, lt_trans hij hj⟩).2 (l.get ⟨j, hj⟩).2)

lemma dropLast_map_range {α : Type} (k : ℕ) (f : ℕ → α) :
    ((List.range k).map f).dropLast = (List.range (k - 1)).map f := by
  cases k with
  | zero => simp
  | succ k => simp [List.range_succ, List.dropLast_concat]

/-- C2 (amended): `generate_ngram` windows over `range(len(s) - n - 1)`, which
is two windows fewer than the naive sliding window over all valid grams — the
final TWO valid grams are excluded, not exactly the final one. -/
theorem generate_ngram_window (s : String) (n : ℕ) :
    generate_ngram [s] n = [((naiveWindows s n).dropLast.dropLast).toFinset] := by
  suffices h : ngramOf s n = ((naiveWindows s n).dropLast.dropLast).toFinset by
    simp [generate_ngram, h]
  rw [ngramOf, naiveWindows]
  by_cases h : n ≤ s.length
  · rw [if_pos h, dropLast_map_range, dropLast_map_range]
    congr 2
  · rw [if_neg h]
    have h0 : s.length - n - 1 = 0 := by omega
    simp [h0]

/-- C2 counterexample: on "example" with n = 3 the source produces the gram
set {exa, xam, amp}, while excluding exactly the final valid gram would also
keep "mpl". -/
theorem generate_ngram_window_cex :
    generate_ngram ["example"] 3 ≠ [ngramAllButLast "example" 3] ∧
    "mpl" ∈ ngramAllButLast "example" 3 ∧ "mpl" ∉ ngramOf "example" 3 :=
  ⟨by decide, by decide, by decide⟩

/-- C10: a string of length at most n+1 yields the empty gram set, since the
window range `range(len(s) - n - 1)` is empty exactly then. -/
theorem generate_ngram_short_empty (s : String) (n : ℕ) (h : s.length ≤ n + 1) :
    generate_ngram [s] n = [∅] := by
  have h0 : s.length - n - 1 = 0 := by omega
  simp [generate_ngram, ngramOf, h0]

/-- C10 witness at the default gram length 3: a 4-character string yields no
grams. -/
theorem generate_ngram_short_empty_witness :
    "abcd".length ≤ 3 + 1 ∧ generate_ngram ["abcd"] 3 = [∅] :=
  ⟨by decide, generate_ngram_short_empty "abcd" 3 (by decide)⟩

/-- C9 (amended): a gram set produced by `generate_ngram` has Jaccard
self-similarity 1 provided it is nonempty; the empty gram set falls into the
guarded empty-union case, which yields 0. -/
theorem jaccard_self (l : List String) (n : ℕ) (g : Finset String)
    (_hg : g ∈ generate_ngram l n) (hne : g ≠ ∅) :
    jaccard g g = 1 := by
  have hcard : (g ∪ g).card ≠ 0 := by
    rw [Finset.union_self, Ne, Finset.card_eq_zero]
    exact hne
  have hq : ((g ∪ g).card : ℚ) ≠ 0 := by exact_mod_cast hcard
  rw [Finset.union_self] at hq
  rw [jaccard, if_pos hcard, Finset.inter_self, Finset.union_self]
  exact div_self hq

/-- C9 witness: the gram set of "abcdef" is nonempty and self-similar with
ratio 1. -/
theorem jaccard_self_witness :
    ngramOf "abcdef" 3 ∈ generate_ngram ["abcdef"] 3 ∧ ngramOf "abcdef" 3 ≠ ∅ ∧
    jaccard (ngramOf "abcdef" 3) (ngramOf "abcdef" 3) = 1 :=
  ⟨by decide, by decide,
    jaccard_self ["abcdef"] 3 (ngramOf "abcdef" 3) (by decide) (by decide)⟩

/-- C9 counterexample: `generate_ngram` produces the empty gram set on "hi",
and the empty gram set's self-similarity is 0, not 1. -/
theorem jaccard_self_cex :
    generate_ngram ["hi"] 3 = [∅] ∧ jaccard (∅ : Finset String) ∅ ≠ 1 := by
  refine ⟨by decide, ?_⟩
  simp [jaccard]

/-- C7: `sort_tuples` orders the frequency-annotated pair ascending (stably),
and `compute_ratio` holds exactly when low/high is below the 0.05 threshold;
counts (1, 100) give a confident ratio and counts (40, 50) do not. -/
theorem sort_tuples_ratio (freq : String → ℕ) (pair : String × String) :
    (sort_tuples freq pair).1.2 ≤ (sort_tuples freq pair).2.2 ∧
    ({(sort_tuples freq pair).1, (sort_tuples freq pair).2} : Multiset (String × ℕ)) =
      {(pair.1, freq pair.1), (pair.2, freq pair.2)} ∧
    (compute_ratio (sort_tuples freq pair) 0.05 = true ↔
      (((sort_tuples freq pair).1.2 : ℚ) / ((sort_tuples freq pair).2.2 : ℚ) < 0.05)) ∧
    compute_ratio (sort_tuples (fun s => if s = "a" then 1 else 100) ("a", "b")) 0.05 = true ∧
    compute_ratio (sort_tuples (fun s => if s = "a" then 40 else 50) ("a", "b")) 0.05 = false := by
  have h1 : sort_tuples (fun s => if s = "a" then 1 else 100) ("a", "b") =
      (("a", 1), ("b", 100)) := by decide
  have h2 : sort_tuples (fun s => if s = "a" then 40 else 50) ("a", "b") =
      (("a", 40), ("b", 50)) := by decide
  refine ⟨?_, ?_, ?_, ?_, ?_⟩
  · rw [sort_tuples]
    dsimp only
    split_ifs with h
    · exact le_of_lt h
    · exact le_of_not_lt h
  · rw [sort_tuples]
    dsimp only
    split_ifs with h
    · exact Multiset.pair_comm _ _
    · rfl
  · rw [compute_ratio]
    split_ifs with h <;> simp [h]
  · rw [h1, compute_ratio, if_pos (by norm_num)]
  · rw [h2, compute_ratio, if_neg (by norm_num)]

/-- C8: the Jaccard ratio yields 0 on an empty union instead of dividing, and
the frequency-ratio divisor (the larger count after sorting) is positive
whenever both pair members occur with positive counts. -/
theorem division_guards (a b : Finset String) (freq : String → ℕ) (pair : String × String)
    (hu : a ∪ b = ∅) (h1 : 0 < freq pair.1) (h2 : 0 < freq pair.2) :
    jaccard a b = 0 ∧ 0 < (sort_tuples freq pair).2.2 := by
  constructor
  · rw [jaccard, if_neg]
    simp [hu]
  · rw [sort_tuples]
    dsimp only
    split_ifs with h
    · exact h1
    · exact h2

/-- C8 witness at the empty gram sets and a constant frequency table. -/
theorem division_guards_witness :
    jaccard (∅ : Finset String) ∅ = 0 ∧ 0 < (sort_tuples (fun _ => 1) ("a", "b")).2.2 :=
  division_guards ∅ ∅ (fun _ => 1) ("a", "b") (by simp) Nat.one_pos Nat.one_pos

/-- C1: the source's coercion line `[str(x) for x in df if type(x) != str]`
keeps only the entries that are not already strings, so an all-string pool is
emptied before matching and no close match can come back (difflib draws
matches from the pool it is given; the hypothesis pins its value on the empty
pool only). -/
theorem close_matches_drop_strings (matcher : PVal → List String → List String)
    (hm : matcher (PVal.str "aple") [] = []) :
    compute_close_matches matcher [PVal.str "apple"] (PVal.str "aple") = [] := by
  rw [compute_close_matches]
  have hlist : ((([PVal.str "apple"].filter pvalTruthy).filter
      (fun x => !(pvalIsStr x))).map pvalStr) = [] := by decide
  rw [hlist, hm]
  rfl

/-- C1 witness: instantiating the matcher with the one that returns no
matches. -/
theorem close_matches_drop_strings_witness :
    emptyMatcher (PVal.str "aple") [] = [] ∧
    compute_close_matches emptyMatcher [PVal.str "apple"] (PVal.str "aple") = [] :=
  ⟨rfl, close_matches_drop_strings emptyMatcher rfl⟩

/-- C6: the random fallback skips the flagged value when every column entry is
in the outlier list (the `continue` guard), and otherwise replaces every
occurrence of the flagged value by a column value outside the outlier list;
being a total function, it cannot loop or raise. -/
theorem random_fallback_spec (col outlier : List PVal) (out : PVal) :
    ((∀ v ∈ col, v ∈ outlier) → random_fallback col outlier out = col) ∧
    (∀ r, col.find? (fun v => decide (v ∉ outlier)) = some r →
      r ∈ col ∧ r ∉ outlier ∧ random_fallback col outlier out = replaceVal col out r) ∧
    ((∃ v ∈ col, v ∉ outlier) → ∃ r ∈ col, r ∉ outlier ∧
      random_fallback col outlier out = replaceVal col out r) := by
  refine ⟨?_, ?_, ?_⟩
  · intro h
    rw [random_fallback]
    have hnone : col.find? (fun v => decide (v ∉ outlier)) = none := by
      rw [List.find?_eq_none]
      intro x hx
      simp [h x hx]
    rw [hnone]
  · intro r hr
    refine ⟨List.mem_of_find?_eq_some hr, ?_, ?_⟩
    · simpa using List.find?_some hr
    · rw [random_fallback, hr]
  · rintro ⟨v, hv, hvo⟩
    cases hfind : col.find? (fun v => decide (v ∉ outlier)) with
    | none =>
      exfalso
      rw [List.find?_eq_none] at hfind
      exact hfind v hv (by simpa using hvo)
    | some r =>
      exact ⟨r, List.mem_of_find?_eq_some hfind, by simpa using List.find?_some hfind,
        by rw [random_fallback, hfind]⟩

/-- C6 witness: in the column [a, b] with outlier list [b], the fallback
replaces b by a, a column value outside the outlier list. -/
theorem random_fallback_spec_witness :
    PVal.str "a" ∈ [PVal.str "a", PVal.str "b"] ∧
    PVal.str "a" ∉ [PVal.str "b"] ∧
    random_fallback [PVal.str "a", PVal.str "b"] [PVal.str "b"] (PVal.str "b") =
      replaceVal [PVal.str "a", PVal.str "b"] (PVal.str "b") (PVal.str "a") :=
  (random_fallback_spec [PVal.str "a", PVal.str "b"] [PVal.str "b"] (PVal.str "b")).2.1
    (PVal.str "a") (by decide)

lemma handleOut_skip (matcher : PVal → List String → List String) (names : List String)
    (dt : String) (col0 unique_vals outlier cur : List PVal) (out : PVal)
    (h : ¬ (((value_counts col0 out : ℚ) / (col0.length : ℚ) < 0.025
        ∧ (unique_vals.length : ℚ) / (col0.length : ℚ) < 0.8)
      ∨ (out ∈ cur ∧ dt ∉ names ∧ dt ≠ "string"))) :
    handleOut matcher names dt col0 unique_vals outlier cur out = cur := by
  rw [handleOut, if_neg h]

lemma run_apple_eval (matcher : PVal → List String → List String) :
    run matcher [appleCol] ["email"] [[PVal.str "aple"]] ["email"] = ([appleCol], ["email"]) := by
  have hu : uniqueList appleCol = [PVal.str "apple", PVal.str "aple", PVal.str "banana"] := by
    decide
  have hskip : handleOut matcher ["email"] "email" appleCol
      [PVal.str "apple", PVal.str "aple", PVal.str "banana"] [PVal.str "aple"] appleCol
      (PVal.str "aple") = appleCol := by
    apply handleOut_skip
    rintro (⟨hr, -⟩ | ⟨-, hn, -⟩)
    · have hv : value_counts appleCol (PVal.str "aple") = 1 := by decide
      have hl : appleCol.length = 5 := by decide
      rw [hv, hl] at hr
      norm_num at hr
    · exact hn (by decide)
  have hcol : handleColumn matcher ["email"] appleCol "email" [PVal.str "aple"] =
      (appleCol, "email") := by
    simp only [handleColumn]
    rw [hu]
    rw [if_neg (by decide :
      ¬ ([PVal.str "apple", PVal.str "aple", PVal.str "banana"].length = [PVal.str "aple"].length))]
    rw [if_pos (by decide : ([PVal.str "aple"] ≠ [] ∧ "email" ≠ "sentence"))]
    simp only [List.foldl]
    rw [hskip]
  simp only [run]
  rw [hcol]

/-- C3 (amended): on the spec's apple/aple/banana column with a recognized
subtype ("email" in the names list) and outlier list ["aple"], `run` changes
nothing at all: the rarity guard fails (frequency ratio 1/5 = 0.2 is not
below 0.025, and the second disjunct needs a datatype outside the recognized
list), so neither the similarity path nor the random fallback engages,
whichever close-match routine difflib provides. -/
theorem apple_column_untouched (matcher : PVal → List String → List String) :
    run matcher [appleCol] ["email"] [[PVal.str "aple"]] ["email"] = ([appleCol], ["email"]) :=
  run_apple_eval matcher

/-- C3 counterexample: the claim promises every occurrence of "aple" replaced
by a non-outlier value (never "aple" itself); after the run the column still
contains "aple" unchanged. -/
theorem apple_column_untouched_cex :
    (run emptyMatcher [appleCol] ["email"] [[PVal.str "aple"]] ["email"]).1 = [appleCol] ∧
    PVal.str "aple" ∈ appleCol := by
  refine ⟨?_, by decide⟩
  rw [run_apple_eval emptyMatcher]

lemma mem_uniqueAux {α : Type} [DecidableEq α] (l : List α) :
    ∀ (seen : List α) (x : α), x ∈ uniqueAux seen l ↔ x ∈ l ∧ x ∉ seen := by
  induction l with
  | nil =>
    intro seen x
    simp [uniqueAux]
  | cons v vs ih =>
    intro seen x
    rw [uniqueAux]
    split_ifs with hv
    · rw [ih seen x, List.mem_cons]
      constructor
      · rintro ⟨h1, h2⟩
        exact ⟨Or.inr h1, h2⟩
      · rintro ⟨h1 | h1, h2⟩
        · exact absurd (h1 ▸ hv) h2
        · exact ⟨h1, h2⟩
    · simp only [List.mem_cons, ih (v :: seen) x]
      constructor
      · rintro (rfl | ⟨h1, h2⟩)
        · exact ⟨Or.inl rfl, hv⟩
        · exact ⟨Or.inr h1, fun hs => h2 (Or.inr hs)⟩
      · rintro ⟨hx | hx, h2⟩
        · exact Or.inl hx
        · by_cases hxv : x = v
          · exact Or.inl hxv
          · exact Or.inr ⟨hx, fun hc => hc.elim hxv h2⟩

lemma nodup_uniqueAux {α : Type} [DecidableEq α] (l : List α) :
    ∀ seen : List α, (uniqueAux seen l).Nodup := by
  induction l with
  | nil => intro seen; simp [uniqueAux]
  | cons v vs ih =>
    intro seen
    rw [uniqueAux]
    split_ifs with hv
    · exact ih seen
    · rw [List.nodup_cons]
      refine ⟨fun hmem => ?_, ih (v :: seen)⟩
      rw [mem_uniqueAux] at hmem
      exact hmem.2 (List.mem_cons_self v seen)

lemma mem_uniqueList {α : Type} [DecidableEq α] (l : List α) (x : α) :
    x ∈ uniqueList l ↔ x ∈ l := by
  rw [uniqueList, mem_uniqueAux]
  simp

lemma nodup_uniqueList {α : Type} [DecidableEq α] (l : List α) :
    (uniqueList l).Nodup :=
  nodup_uniqueAux l []

lemma length_eq_of_mem_iff {α : Type} [DecidableEq α] {l₁ l₂ : List α}
    (h1 : l₁.Nodup) (h2 : l₂.Nodup) (h : ∀ x, x ∈ l₁ ↔ x ∈ l₂) :
    l₁.length = l₂.length := by
  rw [← List.toFinset_card_of_nodup h1, ← List.toFinset_card_of_nodup h2]
  congr 1
  ext x
  simp [h x]

lemma handleColumn_all_flagged (matcher : PVal → List String → List String)
    (names : List String) (col : List PVal) (dt : String) (outlier : List PVal)
    (h : (uniqueList col).length = outlier.length) :
    handleColumn matcher names col dt outlier =
      (col.map (fun v => PVal.str (pvalStr v)), "string") := by
  simp only [handleColumn]
  rw [if_pos h]

lemma handleColumn_dt_cases (matcher : PVal → List String → List String) (names : List String)
    (col : List PVal) (dt : String) (outlier : List PVal) :
    (handleColumn matcher names col dt outlier).2 = dt ∨
    ((uniqueList col).length = outlier.length ∧
      (handleColumn matcher names col dt outlier).2 = "string") := by
  simp only [handleColumn]
  split_ifs with h1 h2 h3
  · exact Or.inr ⟨h1, rfl⟩
  · exact Or.inl rfl
  · exact Or.inl rfl
  · exact Or.inl rfl

lemma run_get_all_some (matcher : PVal → List String → List String) (names : List String) :
    ∀ (df : List (List PVal)) (datatypes : List String) (outliers : List (List PVal))
      (j : ℕ) (c : List PVal) (dt : String) (o : List PVal),
      df.get? j = some c → datatypes.get? j = some dt → outliers.get? j = some o →
      (run matcher df datatypes outliers names).1.get? j =
        some (handleColumn matcher names c dt o).1 ∧
      (run matcher df datatypes outliers names).2.get? j =
        some (handleColumn matcher names c dt o).2 := by
  intro df
  induction df with
  | nil =>
    intro dts outs j c dt o hc
    simp at hc
  | cons col df ih =>
    intro dts outs j c dt o hc hd ho
    cases dts with
    | nil => simp at hd
    | cons dt0 dts =>
      cases outs with
      | nil => simp at ho
      | cons o0 outs =>
        simp only [run]
        cases j with
        | zero =>
          simp only [List.get?] at hc hd ho
          injection hc with hc
          injection hd with hd
          injection ho with ho
          subst hc
          subst hd
          subst ho
          exact ⟨rfl, rfl⟩
        | succ j =>
          simp only [List.get?] at hc hd ho ⊢
          exact ih dts outs j c dt o hc hd ho

lemma run_datatypes_frame (matcher : PVal → List String → List String) (names : List String) :
    ∀ (df : List (List PVal)) (datatypes : List String) (outliers : List (List PVal)) (k : ℕ),
      (run matcher df datatypes outliers names).2.get? k = datatypes.get? k ∨
      (∃ ck dtk ok, df.get? k = some ck ∧ datatypes.get? k = some dtk ∧
        outliers.get? k = some ok ∧ (uniqueList ck).length = ok.length ∧
        (run matcher df datatypes outliers names).2.get? k = some "string") := by
  intro df
  induction df with
  | nil => intro dts outs k; exact Or.inl (by simp [run])
  | cons col df ih =>
    intro dts outs k
    cases dts with
    | nil => exact Or.inl (by simp [run])
    | cons dt0 dts =>
      cases outs with
      | nil => exact Or.inl (by simp [run])
      | cons o0 outs =>
        cases k with
        | zero =>
          rcases handleColumn_dt_cases matcher names col dt0 o0 with h | ⟨hlen, h⟩
          · exact Or.inl (by simp only [run, List.get?]; rw [h])
          · exact Or.inr ⟨col, dt0, o0, rfl, rfl, rfl, hlen,
              by simp only [run, List.get?]; rw [h]⟩
        | succ k =>
          rcases ih dts outs k with h | ⟨ck, dtk, ok, h1, h2, h3, h4, h5⟩
          · exact Or.inl (by simp only [run, List.get?]; exact h)
          · exact Or.inr ⟨ck, dtk, ok, by simpa [List.get?] using h1,
              by simpa [List.get?] using h2, by simpa [List.get?] using h3, h4,
              by simp only [run, List.get?]; exact h5⟩

/-- C5: when the outlier list flags exactly the unique values of a column
(duplicate-free and all present), `run` takes the total-outlier fallback on
that column: the datatype label becomes "string" and the column is merely
`astype(str)`-coerced, with no value replacement; moreover, for every column
of the frame, the datatype label either stays unchanged or was set to
"string" by this same all-uniques-flagged branch — no other strategy mutates
the datatype list. -/
theorem total_outlier_fallback (matcher : PVal → List String → List String)
    (names : List String) (df : List (List PVal)) (datatypes : List String)
    (outliers : List (List PVal)) (j : ℕ) (c : List PVal) (dt : String) (o : List PVal)
    (hc : df.get? j = some c) (hd : datatypes.get? j = some dt) (ho : outliers.get? j = some o)
    (hnodup : o.Nodup) (hflag : ∀ v ∈ c, v ∈ o) (hpresent : ∀ v ∈ o, v ∈ c) :
    (run matcher df datatypes outliers names).1.get? j =
      some (c.map (fun v => PVal.str (pvalStr v))) ∧
    (run matcher df datatypes outliers names).2.get? j = some "string" ∧
    (∀ k, (run matcher df datatypes outliers names).2.get? k = datatypes.get? k ∨
      (∃ ck dtk ok, df.get? k = some ck ∧ datatypes.get? k = some dtk ∧
        outliers.get? k = some ok ∧ (uniqueList ck).length = ok.length ∧
        (run matcher df datatypes outliers names).2.get? k = some "string")) := by
  have hlen : (uniqueList c).length = o.length := by
    apply length_eq_of_mem_iff (nodup_uniqueList c) hnodup
    intro x
    rw [mem_uniqueList]
    exact ⟨fun hx => hflag x hx, fun hx => hpresent x hx⟩
  have hrun := run_get_all_some matcher names df datatypes outliers j c dt o hc hd ho
  have hcol := handleColumn_all_flagged matcher names c dt o hlen
  refine ⟨?_, ?_, fun k => run_datatypes_frame matcher names df datatypes outliers k⟩
  · rw [hrun.1, hcol]
  · rw [hrun.2, hcol]

/-- C5 witness: the spec's ["a", "b"] column with outlier list ["a", "b"]
keeps its values and flips its datatype to "string". -/
theorem total_outlier_fallback_witness :
    (run emptyMatcher [[PVal.str "a", PVal.str "b"]] ["email"]
        [[PVal.str "a", PVal.str "b"]] []).1.get? 0 = some [PVal.str "a", PVal.str "b"] ∧
    (run emptyMatcher [[PVal.str "a", PVal.str "b"]] ["email"]
        [[PVal.str "a", PVal.str "b"]] []).2.get? 0 = some "string" := by
  have h := total_outlier_fallback emptyMatcher [] [[PVal.str "a", PVal.str "b"]] ["email"]
    [[PVal.str "a", PVal.str "b"]] 0 [PVal.str "a", PVal.str "b"] "email"
    [PVal.str "a", PVal.str "b"] rfl rfl rfl (by decide) (by decide) (by decide)
  exact ⟨by rw [h.1]; rfl, h.2.1⟩

lemma innerLoop_spec (v : String) (g : Finset String) :
    ∀ (rest : List (String × Finset String)) (st : ℚ × Option (String × String)),
      (innerLoop v g rest st = st ∧
        ∀ j, ∀ hj : j < rest.length,
          ¬ (0.75 ≤ jaccard g (rest.get ⟨j, hj⟩).2 ∧ st.1 < jaccard g (rest.get ⟨j, hj⟩).2)) ∨
      (∃ j, ∃ hj : j < rest.length,
        (innerLoop v g rest st).1 = jaccard g (rest.get ⟨j, hj⟩).2 ∧
        (innerLoop v g rest st).2 = some (v, (rest.get ⟨j, hj⟩).1) ∧
        0.75 ≤ jaccard g (rest.get ⟨j, hj⟩).2 ∧
        st.1 < jaccard g (rest.get ⟨j, hj⟩).2 ∧
        (∀ k, ∀ hk : k < rest.length, k < j →
          jaccard g (rest.get ⟨k, hk⟩).2 < jaccard g (rest.get ⟨j, hj⟩).2 ∨
          jaccard g (rest.get ⟨k, hk⟩).2 ≤ st.1 ∨
          ¬ 0.75 ≤ jaccard g (rest.get ⟨k, hk⟩).2) ∧
        (∀ k, ∀ hk : k < rest.length, j < k →
          0.75 ≤ jaccard g (rest.get ⟨k, hk⟩).2 →
          jaccard g (rest.get ⟨k, hk⟩).2 ≤ jaccard g (rest.get ⟨j, hj⟩).2)) := by
  intro rest
  induction rest with
  | nil =>
    intro st
    left
    refine ⟨rfl, ?_⟩
    intro j hj
    simp at hj
  | cons x rest ih =>
    intro st
    obtain ⟨w, gw⟩ := x
    by_cases hc : 0.75 ≤ jaccard g gw ∧ st.1 < jaccard g gw
    · have hstep : innerLoop v g ((w, gw) :: rest) st =
          innerLoop v g rest (jaccard g gw, some (v, w)) := by
        simp only [innerLoop]
        rw [if_pos hc]
      rcases ih (jaccard g gw, some (v, w)) with ⟨heq, hnone⟩ | ⟨j, hj, h1, h2, h3, h4, h5, h6⟩
      · right
        refine ⟨0, Nat.succ_pos _, ?_, ?_, hc.1, hc.2, ?_, ?_⟩
        · rw [hstep, heq]
          rfl
        · rw [hstep, heq]
          rfl
        · intro k hk hk0
          exact absurd hk0 (Nat.not_lt_zero k)
        · intro k hk hk0 hq
          cases k with
          | zero => exact absurd hk0 (lt_irrefl 0)
          | succ k =>
            have hk2 : k < rest.length := Nat.succ_lt_succ_iff.mp hk
            have hno := hnone k hk2
            by_contra hlt
            push_neg at hlt
            exact hno ⟨hq, hlt⟩
      · right
        have hjs : j + 1 < ((w, gw) :: rest).length := Nat.succ_lt_succ hj
        refine ⟨j + 1, hjs, ?_, ?_, h3, lt_trans hc.2 h4, ?_, ?_⟩
        · rw [hstep]
          exact h1
        · rw [hstep]
          exact h2
        · intro k hk hk0
          cases k with
          | zero => exact Or.inl h4
          | succ k =>
            have hk2 : k < rest.length := Nat.succ_lt_succ_iff.mp hk
            have hk02 : k < j := Nat.succ_lt_succ_iff.mp hk0
            rcases h5 k hk2 hk02 with h | h | h
            · exact Or.inl h
            · exact Or.inl (lt_of_le_of_lt h h4)
            · exact Or.inr (Or.inr h)
        · intro k hk hk0 hq
          cases k with
          | zero => exact absurd hk0 (Nat.not_lt_zero _)
          | succ k =>
            have hk2 : k < rest.length := Nat.succ_lt_succ_iff.mp hk
            have hk02 : j < k := Nat.succ_lt_succ_iff.mp hk0
            exact h6 k hk2 hk02 hq
    · have hstep : innerLoop v g ((w, gw) :: rest) st = innerLoop v g rest st := by
        simp only [innerLoop]
        rw [if_neg hc]
      rcases ih st with ⟨heq, hnone⟩ | ⟨j, hj, h1, h2, h3, h4, h5, h6⟩
      · left
        refine ⟨by rw [hstep, heq], ?_⟩
        intro j hj
        cases j with
        | zero => exact hc
        | succ j =>
          have hj2 : j < rest.length := Nat.succ_lt_succ_iff.mp hj
          exact hnone j hj2
      · right
        have hjs : j + 1 < ((w, gw) :: rest).length := Nat.succ_lt_succ hj
        refine ⟨j + 1, hjs, ?_, ?_, h3, h4, ?_, ?_⟩
        · rw [hstep]
          exact h1
        · rw [hstep]
          exact h2
        · intro k hk hk0
          cases k with
          | zero =>
            by_cases hq : 0.75 ≤ jaccard g gw
            · refine Or.inr (Or.inl ?_)
              by_contra hlt
              push_neg at hlt
              exact hc ⟨hq, hlt⟩
            · exact Or.inr (Or.inr hq)
          | succ k =>
            have hk2 : k < rest.length := Nat.succ_lt_succ_iff.mp hk
            have hk02 : k < j := Nat.succ_lt_succ_iff.mp hk0
            exact h5 k hk2 hk02
        · intro k hk hk0 hq
          cases k with
          | zero => exact absurd hk0 (Nat.not_lt_zero _)
          | succ k =>
            have hk2 : k < rest.length := Nat.succ_lt_succ_iff.mp hk
            have hk02 : j < k := Nat.succ_lt_succ_iff.mp hk0
            exact h6 k hk2 hk02 hq

lemma bestPairSpec_cons (x : String × Finset String) (rest : List (String × Finset String))
    (p : String × String) (h : BestPairSpec rest p) : BestPairSpec (x :: rest) p := by
  obtain ⟨i, j, hij, hj, e1, e2, e3, e4, e5⟩ := h
  refine ⟨i + 1, j + 1, Nat.succ_lt_succ hij, Nat.succ_lt_succ hj, e1, e2, e3, ?_, ?_⟩
  · intro k hk hik
    cases k with
    | zero => exact absurd hik (Nat.not_lt_zero _)
    | succ k => exact e4 k (Nat.succ_lt_succ_iff.mp hk) (Nat.succ_lt_succ_iff.mp hik)
  · intro k hk hik hkj
    cases k with
    | zero => exact absurd hik (Nat.not_lt_zero _)
    | succ k =>
      exact e5 k (Nat.succ_lt_succ_iff.mp hk) (Nat.succ_lt_succ_iff.mp hik)
        (Nat.succ_lt_succ_iff.mp hkj)

lemma msAux_spec (l : List (String × Finset String)) :
    List.Sublist ((msAux l).map Prod.fst) (l.map Prod.fst) ∧
    ∀ p ∈ msAux l, BestPairSpec l p := by
  induction l with
  | nil => exact ⟨List.Sublist.refl _, fun p hp => absurd hp (List.not_mem_nil p)⟩
  | cons x rest ih =>
    obtain ⟨v, g⟩ := x
    rcases innerLoop_spec v g rest (0, none) with ⟨heq, hnone⟩ | ⟨j, hj, h1, h2, h3, h4, h5, h6⟩
    · have hm : msAux ((v, g) :: rest) = msAux rest := by
        simp only [msAux]
        rw [heq]
      constructor
      · rw [hm]
        exact List.Sublist.cons v ih.1
      · intro p hp
        rw [hm] at hp
        exact bestPairSpec_cons (v, g) rest p (ih.2 p hp)
    · have hm : msAux ((v, g) :: rest) = (v, (rest.get ⟨j, hj⟩).1) :: msAux rest := by
        simp only [msAux]
        rw [h2]
      constructor
      · rw [hm]
        exact List.Sublist.cons₂ v ih.1
      · intro p hp
        rw [hm] at hp
        rcases List.mem_cons.mp hp with rfl | hp2
        · refine ⟨0, j + 1, Nat.succ_pos _, Nat.succ_lt_succ hj, rfl, rfl, h3, ?_, ?_⟩
          · intro k hk h0k
            cases k with
            | zero => exact absurd h0k (lt_irrefl 0)
            | succ k =>
              have hk2 : k < rest.length := Nat.succ_lt_succ_iff.mp hk
              rcases lt_trichotomy k j with hkj | rfl | hjk
              · rcases h5 k hk2 hkj with h | h | h
                · exact le_of_lt h
                · exact le_of_lt (lt_of_le_of_lt h
                    (lt_of_lt_of_le (by norm_num : (0 : ℚ) < 0.75) h3))
                · push_neg at h
                  exact le_of_lt (lt_of_lt_of_le h h3)
              · exact le_refl _
              · by_cases hq : 0.75 ≤ jaccard g (rest.get ⟨k, hk2⟩).2
                · exact h6 k hk2 hjk hq
                · push_neg at hq
                  exact le_of_lt (lt_of_lt_of_le hq h3)
          · intro k hk h0k hkj
            cases k with
            | zero => exact absurd h0k (lt_irrefl 0)
            | succ k =>
              have hk2 : k < rest.length := Nat.succ_lt_succ_iff.mp hk
              have hkj2 : k < j := Nat.succ_lt_succ_iff.mp hkj
              rcases h5 k hk2 hkj2 with h | h | h
              · exact h
              · exact lt_of_le_of_lt h (lt_of_lt_of_le (by norm_num : (0 : ℚ) < 0.75) h3)
              · push_neg at h
                exact lt_of_lt_of_le h h3
        · exact bestPairSpec_cons (v, g) rest p (ih.2 p hp2)

lemma zip_map_fst_snd_self {α β : Type} (l : List (α × β)) :
    (l.map Prod.fst).zip (l.map Prod.snd) = l := by
  induction l with
  | nil => rfl
  | cons x xs ih => simp [List.zip, ih]

/-- C4: every pair returned by `compute_most_similar` on parallel
value/gram-set lists joins a left-hand position with a strictly later
right-hand position whose Jaccard ratio is at least 0.75, no later partner of
the left-hand position scores higher, every partner strictly between scores
strictly lower (so equal-ratio ties keep the earliest right-hand index, the
comparison being strict improvement), and the left-hand components of the
result form a sublist of the input values — at most one pair per left-hand
position, in iteration order. -/
theorem most_similar_best_pairs (l : List (String × Finset String)) :
    List.Sublist ((compute_most_similar (l.map Prod.fst) (l.map Prod.snd)).map Prod.fst)
      (l.map Prod.fst) ∧
    ∀ p ∈ compute_most_similar (l.map Prod.fst) (l.map Prod.snd), BestPairSpec l p := by
  rw [compute_most_similar, zip_map_fst_snd_self]
  exact msAux_spec l

lemma jaccard_abcdef_abcdeg : jaccard (ngramOf "abcdef" 3) (ngramOf "abcdeg" 3) = 1 := by
  rw [jaccard]
  rw [show (ngramOf "abcdef" 3 ∪ ngramOf "abcdeg" 3).card = 2 from by decide]
  rw [show (ngramOf "abcdef" 3 ∩ ngramOf "abcdeg" 3).card = 2 from by decide]
  norm_num

lemma most_similar_pair_eval :
    compute_most_similar ["abcdef", "abcdeg"] [ngramOf "abcdef" 3, ngramOf "abcdeg" 3] =
      [("abcdef", "abcdeg")] := by
  rw [compute_most_similar]
  show msAux [("abcdef", ngramOf "abcdef" 3), ("abcdeg", ngramOf "abcdeg" 3)] = _
  simp only [msAux, innerLoop]
  rw [if_pos (by rw [jaccard_abcdef_abcdeg]; norm_num :
    0.75 ≤ jaccard (ngramOf "abcdef" 3) (ngramOf "abcdeg" 3) ∧
    ((0 : ℚ), (Option.none : Option (String × String))).1 <
      jaccard (ngramOf "abcdef" 3) (ngramOf "abcdeg" 3))]

/-- C4 witness: "abcdef" and "abcdeg" share the gram set {abc, bcd}, so the
returned pair satisfies the best-pair specification. -/
theorem most_similar_best_pairs_witness :
    BestPairSpec [("abcdef", ngramOf "abcdef" 3), ("abcdeg", ngramOf "abcdeg" 3)]
      ("abcdef", "abcdeg") := by
  apply (most_similar_best_pairs
    [("abcdef", ngramOf "abcdef" 3), ("abcdeg", ngramOf "abcdeg" 3)]).2
  have h1 : List.map Prod.fst [("abcdef", ngramOf "abcdef" 3), ("abcdeg", ngramOf "abcdeg" 3)] =
      ["abcdef", "abcdeg"] := rfl
  have h2 : List.map Prod.snd [("abcdef", ngramOf "abcdef" 3), ("abcdeg", ngramOf "abcdeg" 3)] =
      [ngramOf "abcdef" 3, ngramOf "abcdeg" 3] := rfl
  rw [h1, h2, most_similar_pair_eval]
  exact List.mem_singleton.mpr rfl
